import Mathlib

/-!
Verification of the nested-configuration combination and instantiation engine
of `pydantic_sweep` against its natural-language specification.

The Python values flowing through the library (config dictionaries, leaf
values, the `DefaultValue` sentinel, pydantic model instances) are embedded as
the mutual inductive types `PVal` (a Python value) and `Entries` (an insertion
ordered string-keyed association list, the embedding of a Python `dict`).
Python dictionaries preserve insertion order and have unique keys; `Entries`
represents them positionally, with key uniqueness stated where a proof needs
it.  Exceptions are embedded with `Except Err`.
-/

set_option maxHeartbeats 1000000

/-- Error kinds raised by the embedded functions.  Python raises `ValueError`,
`KeyError` or `IndexError` with messages; the spec's error taxonomy names the
kinds, which we follow. -/
inductive Err where
  | invalidPath
  | keyNotFound
  | typeMismatch
  | conflictError
  | indexError
  | invalidChainResult
  | invalidArguments
  | schemaConfigError
  | nonHashableField
  | keyError
  | ambiguousUnion (names : List String)
  | missingField
  | validationError
  | unhashableValue
  deriving DecidableEq, Repr

mutual
/-- A Python value: leaf values (ints, strings, bools, the `DefaultValue`
sentinel class object, pydantic model instances) and nested dictionaries. -/
inductive PVal where
  | vint (n : Int)
  | vstr (s : String)
  | vbool (b : Bool)
  | vdefault
  | vmodel (className : String) (fields : Entries)
  | vdict (entries : Entries)
  deriving DecidableEq, Repr
/-- A Python `dict[str, ...]` as an insertion-ordered association list. -/
inductive Entries where
  | nil
  | cons (key : String) (value : PVal) (rest : Entries)
  deriving DecidableEq, Repr
end

/-- Whether a value is a Python `dict` (the `isinstance(v, dict)` test). -/
def isDictV : PVal → Bool
  | .vdict _ => true
  | _ => false

/-- Identity test against the `DefaultValue` sentinel (`value is DefaultValue`). -/
def isDefaultV : PVal → Bool
  | .vdefault => true
  | _ => false

/-- A value accepted by `field`'s check: `isinstance(value, pydantic.BaseModel | Hashable)`.
Dictionaries are unhashable; all leaves of this embedding's value universe are
hashable, and model instances are accepted explicitly by the source. -/
def isHashableV : PVal → Bool
  | .vdict _ => false
  | _ => true

def Entries.lookup : Entries → String → Option PVal
  | .nil, _ => none
  | .cons k v rest, key => if k = key then some v else rest.lookup key

def Entries.keys : Entries → List String
  | .nil => []
  | .cons k _ rest => k :: rest.keys

def Entries.append : Entries → Entries → Entries
  | .nil, e => e
  | .cons k v rest, e => .cons k v (rest.append e)

/-- Replace the value of an existing key in place (a Python `d[k] = v` on a
present key keeps the key's insertion position). -/
def Entries.set : Entries → String → PVal → Entries
  | .nil, _, _ => .nil
  | .cons k v rest, key, value =>
    if k = key then .cons k value rest else .cons k v (rest.set key value)

/-- Python `d[k] = v`: replace in place if present, append otherwise. -/
def Entries.setOrAppend (es : Entries) (key : String) (value : PVal) : Entries :=
  match es.lookup key with
  | some _ => es.set key value
  | none => es.append (.cons key value .nil)

/-- Remove a key (`del d[k]`), keeping the order of the other entries. -/
def Entries.remove : Entries → String → Entries
  | .nil, _ => .nil
  | .cons k v rest, key => if k = key then rest else .cons k v (rest.remove key)

mutual
/-- Well-formed value: a leaf, or a nonempty well-formed dictionary.  This is
the claim C2 notion of a well-formed Config: a nested string-keyed mapping
whose leaves (terminal nodes) are non-mapping values. -/
def wfV : PVal → Bool
  | .vdict .nil => false
  | .vdict es => wfE es
  | _ => true
/-- Well-formed entries: keys are distinct at this level (dictionaries cannot
repeat a key) and every value is well-formed. -/
def wfE : Entries → Bool
  | .nil => true
  | .cons k v rest => !(rest.keys.contains k) && wfV v && wfE rest
end

mutual
/-- Items contributed by a single dictionary entry, given the path of the
enclosing dictionary: a sub-dictionary recurses, anything else is a leaf.
This is the body of the loop of `_nested_dict_items`. -/
def itemsV (path : List String) (k : String) : PVal → List (List String × PVal)
  | .vdict sub => itemsE (path ++ [k]) sub
  | v => [(path ++ [k], v)]
/-- Depth-first items of a dictionary (`_nested_dict_items`), yielding each
leaf with its full path, in insertion order. -/
def itemsE (path : List String) : Entries → List (List String × PVal)
  | .nil => []
  | .cons k v rest => itemsV path k v ++ itemsE path rest
end

/-- The public `nested_dict_items` applied to a Python value: raises
`ValueError` when the input is not a dictionary. -/
def nested_dict_items : PVal → Except Err (List (List String × PVal))
  | .vdict es => .ok (itemsE [] es)
  | _ => .error .typeMismatch

/-- Insert one `(full_path, value)` item into a nested dictionary: the body of
the loop of `nested_dict_from_items`.  Walking the non-final path segments
creates missing sub-dictionaries and fails on a non-dictionary value
(`ConflictError`: parent/child overwrite); the final key must be fresh
(`ConflictError` otherwise: duplicate value or child nodes).  An empty path
fails like Python's unpacking of an empty tuple. -/
def insertItemE (c : Entries) : List String → PVal → Except Err Entries
  | [], _ => .error .invalidPath
  | [k], v =>
    match c.lookup k with
    | some _ => .error .conflictError
    | none => .ok (c.append (.cons k v .nil))
  | k :: k' :: rest, v =>
    match c.lookup k with
    | none => (insertItemE .nil (k' :: rest) v).map fun sub =>
        c.append (.cons k (.vdict sub) .nil)
    | some (.vdict sub) => (insertItemE sub (k' :: rest) v).map fun sub' =>
        c.set k (.vdict sub')
    | some _ => .error .conflictError

/-- Fold of `insertItemE` over an item list starting from a given accumulator. -/
def foldInsert (acc : Entries) (items : List (List String × PVal)) : Except Err Entries :=
  items.foldlM (fun acc it => insertItemE acc it.1 it.2) acc

/-- The source's `nested_dict_from_items`: build a nested dictionary from
`(path, value)` items, starting from the empty dictionary. -/
def nested_dict_from_items (items : List (List String × PVal)) : Except Err Entries :=
  foldInsert .nil items

/-- Single-leaf nested dictionary at a nonempty path (the shape built by
`nested_dict_at`). -/
def singleAt : List String → PVal → Entries
  | [], _ => .nil
  | [k], v => .cons k v .nil
  | k :: k' :: rest, v => .cons k (.vdict (singleAt (k' :: rest) v)) .nil

/-- The source's `nested_dict_at`: nested dictionary with one value at a path. -/
def nested_dict_at (path : List String) (value : PVal) : Except Err Entries :=
  nested_dict_from_items [(path, value)]

/-- Overwrite-mode setter: Python's inner loop of `merge_nested_dicts` with
`overwrite=True` clobbers non-dictionary intermediate nodes with fresh
dictionaries and assigns the final key unconditionally. -/
def setPathE (c : Entries) : List String → PVal → Entries
  | [], _ => c
  | [k], v => c.setOrAppend k v
  | k :: k' :: rest, v =>
    match c.lookup k with
    | some (.vdict sub) => c.set k (.vdict (setPathE sub (k' :: rest) v))
    | some _ => c.set k (.vdict (setPathE .nil (k' :: rest) v))
    | none => c.append (.cons k (.vdict (setPathE .nil (k' :: rest) v)) .nil)

/-- The source's `merge_nested_dicts`.  Without `overwrite` it concatenates the
items of every input (each must be a dictionary) and rebuilds via
`nested_dict_from_items`; with `overwrite` it applies the items in order,
later values silently replacing earlier ones. -/
def merge_nested_dicts (ds : List PVal) (overwrite : Bool) : Except Err PVal := do
  let itss ← ds.mapM nested_dict_items
  if overwrite then
    .ok (.vdict (itss.flatten.foldl (fun res it => setPathE res it.1 it.2) .nil))
  else
    (nested_dict_from_items itss.flatten).map .vdict

/-- A path argument as passed by callers: a dotted string or a sequence of
keys (the source's `Path` type). -/
inductive PyPath where
  | str (s : String)
  | tup (ks : List String)

/-- Key grammar of the source's regular expressions: a letter or underscore
followed by letters, digits or underscores. -/
def isValidKey (s : String) : Bool :=
  match s.toList with
  | [] => false
  | c :: cs => (c.isAlpha || c == '_') && cs.all (fun c => c.isAlphanum || c == '_')

/-- Split a character list on dots (the recursion behind `str.split(".")`):
`cur` accumulates the current segment in reverse. -/
def splitDots : List Char → List Char → List String
  | [], cur => [String.mk cur.reverse]
  | c :: cs, cur =>
    if c = '.' then String.mk cur.reverse :: splitDots cs []
    else splitDots cs (c :: cur)

/-- Python's `s.split(".")`: `""` gives `[""]`, empty segments are kept. -/
def strSplitDots (s : String) : List String := splitDots s.toList []

/-- The source's `normalize_path`: a dotted string must fully match the
dot-separated key grammar (equivalently: every dot-separated segment matches
the key grammar) and is split on dots; a sequence is returned as is, with
each key checked only when `check_keys` is set. -/
def normalize_path (path : PyPath) (check_keys : Bool) : Except Err (List String) :=
  match path with
  | .str s =>
    let parts := strSplitDots s
    if parts.all isValidKey then .ok parts else .error .invalidPath
  | .tup ks =>
    if check_keys && !(ks.all isValidKey) then .error .invalidPath else .ok ks

/-- The source's `field`: normalize the path (checking keys), check each value
hashable-or-model, and build one single-leaf config per value. -/
def field (path : PyPath) (values : List PVal) (check : Bool) :
    Except Err (List PVal) := do
  let p ← normalize_path path true
  if check && !(values.all isHashableV) then
    .error .unhashableValue
  else
    values.mapM (fun v => (nested_dict_at p v).map .vdict)

/-- Cartesian product of lists in the order of `itertools.product`: one element
from each input list, rightmost input varying fastest. -/
def listProduct : List (List α) → List (List α)
  | [] => [[]]
  | l :: ls => l.flatMap (fun x => (listProduct ls).map (x :: ·))

/-- Sum of lengths, the termination measure of the round-robin interleaving. -/
def totalLen (ls : List (List α)) : Nat := (ls.map List.length).sum

theorem totalLen_filter_le (ls : List (List α)) :
    totalLen (ls.filter (fun l => !l.isEmpty)) ≤ totalLen ls := by
  induction ls with
  | nil => simp [totalLen]
  | cons a as ih =>
    simp only [totalLen, List.filter_cons, List.map_cons, List.sum_cons] at *
    cases ha : a.isEmpty with
    | true => simp [ha]; omega
    | false => simp [ha]; omega

theorem totalLen_tails_lt (zs : List (List α)) (hz : ∀ l ∈ zs, l ≠ [])
    (hne : zs ≠ []) : totalLen (zs.map List.tail) < totalLen zs := by
  induction zs with
  | nil => exact absurd rfl hne
  | cons a as ih =>
    have ha : a ≠ [] := hz a (by simp)
    have ha' : a.tail.length < a.length := by
      cases a with
      | nil => exact absurd rfl ha
      | cons x xs => simp
    rcases as with _ | ⟨b, bs⟩
    · simpa [totalLen] using ha'
    · have := ih (fun l hl => hz l (by simp [hl])) (by simp)
      simp only [totalLen, List.map_cons, List.sum_cons] at this ⊢
      omega

/-- One round of `more_itertools.roundrobin`: heads of the non-exhausted
inputs in order, then recurse on their tails. -/
def roundrobinList (ls : List (List α)) : List α :=
  let ls' := ls.filter (fun l => !l.isEmpty)
  if h : ls'.isEmpty then []
  else (ls'.filterMap List.head?) ++ roundrobinList (ls'.map List.tail)
  termination_by totalLen ls
  decreasing_by
    have hne : ls.filter (fun l => !l.isEmpty) ≠ [] := by
      intro hc
      exact h (List.isEmpty_iff.mpr hc)
    have hmem : ∀ l ∈ ls.filter (fun l => !l.isEmpty), l ≠ [] := by
      intro l hl
      have := (List.mem_filter.mp hl).2
      intro hc
      rw [hc] at this
      simp at this
    calc totalLen ((ls.filter (fun l => !l.isEmpty)).map List.tail)
        < totalLen (ls.filter (fun l => !l.isEmpty)) := totalLen_tails_lt _ hmem hne
      _ ≤ totalLen ls := totalLen_filter_le ls

/-- The source's `config_combine`: exactly one of `combiner`/`chainer` must be
given.  Combiner mode merges each produced tuple without overwrite.  Chainer
mode inspects only the first chained element: a non-dictionary first element
raises `ValueError`, and an empty chained result makes the inspection itself
raise `IndexError`. -/
def config_combine (configs : List (List PVal))
    (combiner : Option (List (List PVal) → List (List PVal)))
    (chainer : Option (List (List PVal) → List PVal)) : Except Err (List PVal) :=
  match combiner, chainer with
  | some _, some _ => .error .invalidArguments
  | some f, none => (f configs).mapM (fun combo => merge_nested_dicts combo false)
  | none, some g =>
    match g configs with
    | [] => .error .indexError
    | r :: rs => if isDictV r then .ok (r :: rs) else .error .invalidChainResult
  | none, none => .error .invalidArguments

/-- The source's `config_product` (`combiner=itertools.product`). -/
def config_product (configs : List (List PVal)) : Except Err (List PVal) :=
  config_combine configs (some listProduct) none

/-- The source's `config_chain` (`chainer=itertools.chain`, i.e. concatenation). -/
def config_chain (configs : List (List PVal)) : Except Err (List PVal) :=
  config_combine configs none (some List.flatten)

/-- The source's `config_roundrobin` (`chainer=more_itertools.roundrobin`). -/
def config_roundrobin (configs : List (List PVal)) : Except Err (List PVal) :=
  config_combine configs none (some roundrobinList)

mutual
/-- A member type of a field annotation: a builtin leaf type, an opaque
non-model type (with a flag saying whether it is hashable-capable), or a
pydantic model class. -/
inductive PTy where
  | tint
  | tstr
  | tbool
  | tother (name : String) (hashable : Bool)
  | tmodel (m : PModel)
  deriving DecidableEq
/-- A list of union member types (`annotation.__args__`); Python unions are
flat, so members are themselves non-union types. -/
inductive PTys where
  | nil
  | cons (t : PTy) (rest : PTys)
/-- A field annotation: a single type, or a `types.UnionType` with its member
types and a flag recording whether a discriminator is declared for the field. -/
inductive PAnn where
  | simple (t : PTy)
  | union (ts : PTys) (discriminated : Bool)
/-- Declared fields of a model (`model_fields`), in declaration order: name,
annotation and optional declared default value. -/
inductive PFields where
  | nil
  | cons (name : String) (ann : PAnn) (dflt : Option PVal) (rest : PFields)
/-- A pydantic model class: its `__name__`, whether `model_config` declares
`extra='forbid'`, whether it declares `arbitrary_types_allowed`, and its
fields. -/
inductive PModel where
  | mk (name : String) (extraForbid : Bool) (arbitraryTypes : Bool) (fields : PFields)
  deriving DecidableEq
end

def PModel.name : PModel → String
  | .mk n _ _ _ => n

def PModel.extraForbid : PModel → Bool
  | .mk _ e _ _ => e

def PModel.arbitraryTypes : PModel → Bool
  | .mk _ _ a _ => a

def PModel.fields : PModel → PFields
  | .mk _ _ _ fs => fs

def PTys.toList : PTys → List PTy
  | .nil => []
  | .cons t rest => t :: rest.toList

/-- Names of a model's declared fields, in order. -/
def fieldNames : PFields → List String
  | .nil => []
  | .cons n _ _ rest => n :: fieldNames rest

/-- Look up a declared field's annotation (`cls.model_fields[key]`). -/
def lookupAnnD : PFields → String → Option PAnn
  | .nil, _ => none
  | .cons n ann _ rest, key => if n = key then some ann else lookupAnnD rest key

/-- Look up a declared field's default value. -/
def lookupDflt : PFields → String → Option (Option PVal)
  | .nil, _ => none
  | .cons n _ d rest, key => if n = key then some d else lookupDflt rest key

mutual
/-- Weight of a type: a termination measure for the schema walk that ignores
paths.  Every constructor adds at least one, so pushing a node's children
always weighs strictly less than the node. -/
def wtTy : PTy → Nat
  | .tmodel m => 1 + wtModel m
  | _ => 1
def wtTys : PTys → Nat
  | .nil => 1
  | .cons t rest => 1 + wtTy t + wtTys rest
def wtAnn : PAnn → Nat
  | .simple t => 1 + wtTy t
  | .union ts _ => 1 + wtTys ts
def wtFields : PFields → Nat
  | .nil => 1
  | .cons _ ann _ rest => 1 + wtAnn ann + wtFields rest
def wtModel : PModel → Nat
  | .mk _ _ _ fs => 1 + wtFields fs
end

/-- The `unhashable` policy of `check_model` (`raise_warn_ignore` actions). -/
inductive RWIAction where
  | raiseA
  | warnA
  | ignoreA
  deriving DecidableEq, Repr

/-- The source's `raise_warn_ignore`: an exception for `raise`; a warning (not
a failure) for `warn`; nothing for `ignore`. -/
def raise_warn_ignore (act : RWIAction) (e : Err) : Except Err Unit :=
  match act with
  | .raiseA => .error e
  | _ => .ok ()

/-- Enqueued work items for one model's declared fields: each field's
annotation at `(*path, field_name)`; a union annotation enqueues every member
type at the same path, in member order (`check_model`'s field loop). -/
def enqFields (path : List String) : PFields → List (List String × PTy)
  | .nil => []
  | .cons n ann _ rest =>
    (match ann with
     | .simple t => [(path ++ [n], t)]
     | .union ts _ => ts.toList.map (fun t => (path ++ [n], t)))
    ++ enqFields path rest

/-- Weight of a work stack. -/
def stackW (stack : List (List String × PTy)) : Nat :=
  (stack.map (fun it => wtTy it.2)).sum

theorem wtTys_toList : (ts : PTys) →
    ((ts.toList.map (fun t => wtTy t)).sum) + 1 ≤ wtTys ts
  | .nil => by simp [PTys.toList, wtTys]
  | .cons t rest => by
    have ih := wtTys_toList rest
    simp only [PTys.toList, wtTys, List.map_cons, List.sum_cons]
    omega

theorem stackW_append (a b : List (List String × PTy)) :
    stackW (a ++ b) = stackW a + stackW b := by
  simp [stackW]

theorem stackW_reverse (a : List (List String × PTy)) :
    stackW a.reverse = stackW a := by
  simp only [stackW, List.map_reverse]
  exact List.sum_reverse _

theorem stackW_enqFields (path : List String) : (fs : PFields) →
    stackW (enqFields path fs) + 1 ≤ wtFields fs
  | .nil => by simp [enqFields, stackW, wtFields]
  | .cons n ann d rest => by
    have ih := stackW_enqFields path rest
    cases ann with
    | simple t =>
      simp only [enqFields, wtFields, wtAnn]
      rw [stackW_append]
      simp only [stackW, List.map_cons, List.map_nil, List.sum_cons, List.sum_nil]
      simp only [stackW] at ih
      omega
    | union ts disc =>
      simp only [enqFields, wtFields, wtAnn]
      rw [stackW_append]
      have h1 : stackW (ts.toList.map (fun t => (path ++ [n], t))) =
          (ts.toList.map (fun t => wtTy t)).sum := by
        simp only [stackW, List.map_map]
        rfl
      have h2 := wtTys_toList ts
      simp only [stackW] at ih h1 ⊢
      omega

/-- The work-list loop of `check_model`.  The Python list appends at the end
and pops from the end; here the head of the list is the top of the stack, so
an extension is reversed before being pushed.  A model node already visited
(same class name) is skipped; an unvisited one is checked for
`extra='forbid'` and `arbitrary_types_allowed` (both `SchemaConfigError`
failures) and its field annotations are enqueued.  Any other node is a leaf:
a non-hashable-capable type triggers the `unhashable` policy. -/
def checkLoop (stack : List (List String × PTy)) (checked : List String)
    (act : RWIAction) : Except Err Unit :=
  match stack with
  | [] => .ok ()
  | (path, t) :: rest =>
    match t with
    | .tmodel m =>
      if checked.contains m.name then checkLoop rest checked act
      else if !m.extraForbid then .error .schemaConfigError
      else if m.arbitraryTypes then .error .schemaConfigError
      else
        checkLoop ((enqFields path m.fields).reverse ++ rest)
          (m.name :: checked) act
    | .tother _ h =>
      if !h then do
        let _ ← raise_warn_ignore act .nonHashableField
        checkLoop rest checked act
      else checkLoop rest checked act
    | .tint => checkLoop rest checked act
    | .tstr => checkLoop rest checked act
    | .tbool => checkLoop rest checked act
  termination_by stackW stack
  decreasing_by
  · simp only [stackW, List.map_cons, List.sum_cons, wtTy]
    omega
  · rw [stackW_append, stackW_reverse]
    have h1 := stackW_enqFields path m.fields
    have h2 : wtFields m.fields + 1 ≤ wtTy (.tmodel m) := by
      cases m with
      | mk n e a fs => simp [wtTy, wtModel, PModel.fields]; omega
    simp only [stackW, List.map_cons, List.sum_cons] at *
    omega
  · simp only [stackW, List.map_cons, List.sum_cons, wtTy]
    omega
  · simp only [stackW, List.map_cons, List.sum_cons, wtTy]
    omega
  · simp only [stackW, List.map_cons, List.sum_cons, wtTy]
    omega
  · simp only [stackW, List.map_cons, List.sum_cons, wtTy]
    omega
  · simp only [stackW, List.map_cons, List.sum_cons, wtTy]
    omega

/-- The source's `check_model`: run the work-list walk from the root model at
the empty path with no visited names. -/
def check_model (m : PModel) (act : RWIAction) : Except Err Unit :=
  checkLoop [([], .tmodel m)] [] act

/-- Length of an association list (second lexicographic component of the
validation termination measure). -/
def entriesLen : Entries → Nat
  | .nil => 0
  | .cons _ _ rest => 1 + entriesLen rest

theorem lookupAnnD_wt : (fs : PFields) → lookupAnnD fs k = some ann → wtAnn ann < wtFields fs
  | .nil, h => by simp [lookupAnnD] at h
  | .cons n a d rest, h => by
    simp only [lookupAnnD] at h
    by_cases hn : n = k
    · rw [if_pos hn] at h
      obtain rfl : a = ann := by injection h
      simp only [wtFields]
      omega
    · rw [if_neg hn] at h
      have := lookupAnnD_wt rest h
      simp only [wtFields]
      omega

/-- The `extra='forbid'` check of pydantic core: every supplied key must be a
declared field name.  Modelled from the spec: the construction semantics of
pydantic itself (a boundary collaborator) — "no unknown fields". -/
def checkExtraKeys (fields : PFields) (data : Entries) : Except Err Unit :=
  if data.keys.all (fun k => (fieldNames fields).contains k) then .ok ()
  else .error .validationError

mutual
/-- Construction/validation of a value against a model class
(`Model(**data)` / `Model.model_validate(data)`).  An instance of the same
class passes unchanged; a mapping runs the repository's safe-union
pre-validation hook and then pydantic-style core field validation; anything
else is a type error.  The core part is modelled from the spec (pydantic is a
boundary collaborator): reject unknown fields, validate each declared field's
value against its annotation, use the declared default when a field is
absent. -/
def validateModel (m : PModel) (v : PVal) : Except Err PVal :=
  match v with
  | .vmodel n flds =>
    if n = m.name then .ok (.vmodel n flds) else .error .validationError
  | .vdict d => do
    let d' ← safeUnionData m.fields d
    let _ ← checkExtraKeys m.fields d'
    let fvals ← coreFields m.fields d'
    .ok (.vmodel m.name fvals)
  | _ => .error .validationError
  termination_by (wtModel m, 0)
  decreasing_by
  all_goals
    exact Prod.Lex.left _ _ (by cases m with | mk n e a fs => simp [wtModel, PModel.fields] <;> omega)

/-- The repository's `BaseModel._safe_union_validator` body: walk the raw
input mapping in order; a mapping-valued entry whose declared field is a
non-discriminated union of types is validated in isolation against every
model alternative.  More than one success raises the ambiguous-union error
naming every matching alternative; exactly one success replaces the raw
mapping with the validated instance; zero successes leave the entry alone.
A mapping-valued entry under a key that is not a declared field raises
`KeyError` (the source catches only `AttributeError` from `fields[key]`). -/
def safeUnionData (fields : PFields) (data : Entries) : Except Err Entries :=
  match data with
  | .nil => .ok .nil
  | .cons k v rest =>
    match v with
    | .vdict dd =>
      (match hl : lookupAnnD fields k with
       | none => .error .keyError
       | some (.simple _) => do
         let rest' ← safeUnionData fields rest
         .ok (.cons k v rest')
       | some (.union ts disc) =>
         if disc then do
           let rest' ← safeUnionData fields rest
           .ok (.cons k v rest')
         else do
           let ms ← collectMatches ts (.vdict dd)
           match ms with
           | [] => do
             let rest' ← safeUnionData fields rest
             .ok (.cons k v rest')
           | [(_, inst)] => do
             let rest' ← safeUnionData fields rest
             .ok (.cons k inst rest')
           | _ => .error (.ambiguousUnion (ms.map Prod.fst)))
    | _ => do
      let rest' ← safeUnionData fields rest
      .ok (.cons k v rest')
  termination_by (wtFields fields, entriesLen data)
  decreasing_by
  all_goals first
  | exact Prod.Lex.right _ (by simp [entriesLen] <;> omega)
  | (have hw := lookupAnnD_wt fields hl
     exact Prod.Lex.left _ _ (by simp [wtAnn] at hw ⊢ <;> omega))

/-- The match collection of the safe-union hook: validate the value against
every model alternative of the union in member order, collecting
`(class name, validated instance)` for each success.  A `ValidationError`
from an alternative is swallowed (`except pydantic.ValidationError: pass`);
a `KeyError` escaping a nested hook propagates. -/
def collectMatches (ts : PTys) (v : PVal) : Except Err (List (String × PVal)) :=
  match ts with
  | .nil => .ok []
  | .cons t rest =>
    match t with
    | .tmodel alt =>
      (match validateModel alt v with
       | .ok inst => (collectMatches rest v).map (fun ms => (alt.name, inst) :: ms)
       | .error .keyError => .error .keyError
       | .error _ => collectMatches rest v)
    | _ => collectMatches rest v
  termination_by (wtTys ts, 0)
  decreasing_by
  all_goals exact Prod.Lex.left _ _ (by simp [wtTys, wtTy] <;> omega)

/-- Pydantic-style field-by-field validation, modelled from the spec: each
declared field takes its supplied value validated against its annotation, or
its declared default, or fails as missing. -/
def coreFields (fields : PFields) (data : Entries) : Except Err Entries :=
  match fields with
  | .nil => .ok .nil
  | .cons n ann dflt rest =>
    match data.lookup n with
    | some v => do
      let v' ← validateAnn ann v
      let rest' ← coreFields rest data
      .ok (.cons n v' rest')
    | none =>
      match dflt with
      | some d => do
        let rest' ← coreFields rest data
        .ok (.cons n d rest')
      | none => .error .missingField
  termination_by (wtFields fields, 0)
  decreasing_by
  all_goals exact Prod.Lex.left _ _ (by simp [wtFields, wtAnn] <;> omega)

/-- Validation of a value against an annotation: a single type directly, a
union by ordinary structural matching (first member that validates, modelled
from the spec's "ordinary resolution"). -/
def validateAnn (ann : PAnn) (v : PVal) : Except Err PVal :=
  match ann with
  | .simple t => validateTy t v
  | .union ts _ => tryTys ts v
  termination_by (wtAnn ann, 0)
  decreasing_by
  all_goals exact Prod.Lex.left _ _ (by simp [wtAnn] <;> omega)

/-- Try union members in order; validation failures fall through to the next
member, a propagating `KeyError` aborts. -/
def tryTys (ts : PTys) (v : PVal) : Except Err PVal :=
  match ts with
  | .nil => .error .validationError
  | .cons t rest =>
    match validateTy t v with
    | .ok r => .ok r
    | .error .keyError => .error .keyError
    | .error _ => tryTys rest v
  termination_by (wtTys ts, 0)
  decreasing_by
  all_goals exact Prod.Lex.left _ _ (by simp [wtTys] <;> omega)

/-- Validation of a value against a single non-union type, modelled from the
spec: builtin leaf types match exactly their kind of value, an opaque type
accepts its value unchanged, a model type constructs/validates recursively. -/
def validateTy (t : PTy) (v : PVal) : Except Err PVal :=
  match t, v with
  | .tint, .vint n => .ok (.vint n)
  | .tstr, .vstr s => .ok (.vstr s)
  | .tbool, .vbool b => .ok (.vbool b)
  | .tother _ _, v => .ok v
  | .tmodel m, v => validateModel m v
  | _, _ => .error .validationError
  termination_by (wtTy t, 0)
  decreasing_by
  all_goals exact Prod.Lex.left _ _ (by simp [wtTy] <;> omega)
end

/-- The source's `nested_dict_replace` (out-of-place form; in place and out of
place compute the same dictionary, out of place on a deep copy).  Traverses to
the parent of the final key: a missing intermediate key raises `KeyError`, a
non-dictionary intermediate raises `ValueError` (the spec's `TypeMismatch`),
the final key must already exist (`KeyError` otherwise, the spec's
`KeyNotFound`), and the empty path fails unpacking (`InvalidPath`). -/
def nested_dict_replace (c : Entries) : List String → PVal → Except Err Entries
  | [], _ => .error .invalidPath
  | [k], v =>
    match c.lookup k with
    | some _ => .ok (c.set k v)
    | none => .error .keyNotFound
  | k :: k' :: rest, v =>
    match c.lookup k with
    | none => .error .keyNotFound
    | some (.vdict sub) =>
      (nested_dict_replace sub (k' :: rest) v).map (fun sub' => c.set k (.vdict sub'))
    | some _ => .error .typeMismatch

/-- Modelled from the spec: `nested_dict_drop` is part of the repository (its
tests import it from `pydantic_sweep._nested_dict`) but its definition is not
among the provided sources.  Per the spec it has the same traversal and
failure rules as `replace`, removing the final key instead of replacing its
value. -/
def nested_dict_drop (c : Entries) : List String → Except Err Entries
  | [] => .error .invalidPath
  | [k] =>
    match c.lookup k with
    | some _ => .ok (c.remove k)
    | none => .error .keyNotFound
  | k :: k' :: rest =>
    match c.lookup k with
    | none => .error .keyNotFound
    | some (.vdict sub) =>
      (nested_dict_drop sub (k' :: rest)).map (fun sub' => c.set k (.vdict sub'))
    | some _ => .error .typeMismatch

/-- The source's `items_skip`, specialized to the `DefaultValue` sentinel
target: drop items whose value is the sentinel (identity comparison). -/
def items_skip (its : List (List String × PVal)) : List (List String × PVal) :=
  its.filter (fun it => !(isDefaultV it.2))

/-- The source's `_config_prune_default`: rebuild a config from its items with
every `DefaultValue` leaf removed. -/
def _config_prune_default (c : PVal) : Except Err PVal := do
  let its ← nested_dict_items c
  (nested_dict_from_items (items_skip its)).map .vdict

/-- The source's `initialize` restricted to its construction path (the
`at`/`to` re-wrapping branches are not exercised by the claims and are
omitted): optionally run `check_model`; optionally product-merge a `constant`
mapping into every config; prune `DefaultValue` leaves; optionally
overwrite-merge a `default` mapping under every config; construct one model
instance per config by keyword expansion. -/
def initModels (model : PModel) (configs : List PVal)
    (constant : Option (List (PyPath × PVal))) (dflt : Option (List (PyPath × PVal)))
    (check : Bool) : Except Err (List PVal) := do
  let _ ← if check then check_model model .warnA else .ok ()
  let configs ← match constant with
    | none => pure configs
    | some cs => do
      let citems ← cs.mapM (fun kv => (normalize_path kv.1 false).map ((·, kv.2)))
      let cdict ← nested_dict_from_items citems
      config_product [configs, [.vdict cdict]]
  let configs ← configs.mapM _config_prune_default
  let configs ← match dflt with
    | none => pure configs
    | some ds => do
      let ditems ← ds.mapM (fun kv => (normalize_path kv.1 false).map ((·, kv.2)))
      let ddict ← nested_dict_from_items (ditems.filter (fun it => !(isDefaultV it.2)))
      configs.mapM (fun c => merge_nested_dicts [.vdict ddict, c] true)
  configs.mapM (fun c => validateModel model c)

mutual
/-- Every model class reachable from a type through declared field
annotations, union members included, the type's own model first. -/
def schemasTy : PTy → List PModel
  | .tmodel (.mk n e a fs) => .mk n e a fs :: schemasFields fs
  | _ => []
def schemasTys : PTys → List PModel
  | .nil => []
  | .cons t rest => schemasTy t ++ schemasTys rest
def schemasAnn : PAnn → List PModel
  | .simple t => schemasTy t
  | .union ts _ => schemasTys ts
def schemasFields : PFields → List PModel
  | .nil => []
  | .cons _ ann _ rest => schemasAnn ann ++ schemasFields rest
end

/-- Class names of the schemas reachable from the items of a work stack. -/
def stackNames (stack : List (List String × PTy)) : List String :=
  stack.flatMap (fun it => (schemasTy it.2).map PModel.name)

/-- Schemas reachable from the items of a work stack. -/
def stackSchemas (stack : List (List String × PTy)) : List PModel :=
  stack.flatMap (fun it => schemasTy it.2)

theorem Entries.append_nil : (a : Entries) → a.append .nil = a
  | .nil => rfl
  | .cons k v rest => by rw [Entries.append, Entries.append_nil rest]

theorem Entries.append_assoc : (a b c : Entries) →
    (a.append b).append c = a.append (b.append c)
  | .nil, _, _ => rfl
  | .cons k v rest, b, c => by
    simp only [Entries.append]
    rw [Entries.append_assoc rest b c]

theorem Entries.lookup_append_of_none : (a : Entries) → a.lookup k = none →
    (a.append b).lookup k = b.lookup k
  | .nil, _ => rfl
  | .cons k' v rest, h => by
    simp only [Entries.lookup] at h ⊢
    by_cases hk : k' = k
    · rw [if_pos hk] at h
      exact absurd h (by simp)
    · rw [if_neg hk] at h ⊢
      exact Entries.lookup_append_of_none rest h

theorem Entries.set_append_of_none : (a : Entries) → a.lookup k = none →
    (a.append b).set k v = a.append (b.set k v)
  | .nil, _ => rfl
  | .cons k' v' rest, h => by
    simp only [Entries.lookup] at h
    by_cases hk : k' = k
    · rw [if_pos hk] at h
      exact absurd h (by simp)
    · rw [if_neg hk] at h
      simp only [Entries.append, Entries.set, if_neg hk]
      rw [Entries.set_append_of_none rest h]

theorem Entries.lookup_of_not_contains : (a : Entries) →
    a.keys.contains k = false → a.lookup k = none
  | .nil, _ => rfl
  | .cons k' v rest, h => by
    simp only [Entries.keys, List.contains_cons, Bool.or_eq_false_iff] at h
    have hk : k' ≠ k := by
      intro hc
      rw [hc] at h
      simp at h
    simp only [Entries.lookup, if_neg hk]
    exact Entries.lookup_of_not_contains rest h.2

mutual
theorem itemsV_shift (p : List String) (k : String) : (v : PVal) →
    itemsV p k v = (itemsV [] k v).map (fun it => (p ++ it.1, it.2))
  | .vdict sub => by
    simp only [itemsV, List.nil_append]
    rw [itemsE_shift (p ++ [k]) sub, itemsE_shift [k] sub]
    simp [List.map_map, Function.comp, List.append_assoc]
  | .vint n => by simp [itemsV]
  | .vstr s => by simp [itemsV]
  | .vbool b => by simp [itemsV]
  | .vdefault => by simp [itemsV]
  | .vmodel n fs => by simp [itemsV]
theorem itemsE_shift (p : List String) : (es : Entries) →
    itemsE p es = (itemsE [] es).map (fun it => (p ++ it.1, it.2))
  | .nil => by simp [itemsE]
  | .cons k v rest => by
    simp only [itemsE, List.map_append]
    rw [itemsV_shift p k v, itemsE_shift p rest]
end

/-- Items of a dictionary-valued entry at the root: the sub-dictionary's items
with the key consed onto every path. -/
theorem itemsV_nil_dict (k : String) (sub : Entries) :
    itemsV [] k (.vdict sub) = (itemsE [] sub).map (fun it => (k :: it.1, it.2)) := by
  simp only [itemsV, List.nil_append]
  rw [itemsE_shift [k] sub]
  simp

mutual
theorem itemsV_ne_nil (k : String) : (v : PVal) → wfV v = true → itemsV [] k v ≠ []
  | .vdict sub, h => by
    cases sub with
    | nil => simp [wfV] at h
    | cons k' v' rest' =>
      rw [itemsV_nil_dict]
      have := itemsE_ne_nil (.cons k' v' rest') (by intro hc; cases hc) (by simpa [wfV] using h)
      simpa using this
  | .vint n, _ => by simp [itemsV]
  | .vstr s, _ => by simp [itemsV]
  | .vbool b, _ => by simp [itemsV]
  | .vdefault, _ => by simp [itemsV]
  | .vmodel n fs, _ => by simp [itemsV]
theorem itemsE_ne_nil : (es : Entries) → es ≠ .nil → wfE es = true → itemsE [] es ≠ []
  | .nil, h, _ => absurd rfl h
  | .cons k v rest, _, h => by
    simp only [wfE, Bool.and_eq_true] at h
    simp only [itemsE]
    intro hc
    rcases List.append_eq_nil.mp hc with ⟨h1, _⟩
    exact itemsV_ne_nil k v h.1.2 h1
end

/-- Every item of a dictionary's item list has a nonempty path starting with
one of the dictionary's top-level keys. -/
theorem itemsE_head : (es : Entries) → ∀ it ∈ itemsE [] es,
    ∃ k tl, it.1 = k :: tl ∧ es.keys.contains k = true
  | .nil => by simp [itemsE]
  | .cons k v rest => by
    intro it hit
    simp only [itemsE, List.mem_append] at hit
    rcases hit with hv | hr
    · cases v with
      | vdict sub =>
        rw [itemsV_nil_dict] at hv
        rcases List.mem_map.mp hv with ⟨it', _, rfl⟩
        exact ⟨k, it'.1, rfl, by simp [Entries.keys]⟩
      | vint n =>
        simp only [itemsV, List.nil_append, List.mem_singleton] at hv
        exact ⟨k, [], by rw [hv], by simp [Entries.keys]⟩
      | vstr s =>
        simp only [itemsV, List.nil_append, List.mem_singleton] at hv
        exact ⟨k, [], by rw [hv], by simp [Entries.keys]⟩
      | vbool b =>
        simp only [itemsV, List.nil_append, List.mem_singleton] at hv
        exact ⟨k, [], by rw [hv], by simp [Entries.keys]⟩
      | vdefault =>
        simp only [itemsV, List.nil_append, List.mem_singleton] at hv
        exact ⟨k, [], by rw [hv], by simp [Entries.keys]⟩
      | vmodel n fs =>
        simp only [itemsV, List.nil_append, List.mem_singleton] at hv
        exact ⟨k, [], by rw [hv], by simp [Entries.keys]⟩
    · rcases itemsE_head rest it hr with ⟨k', tl, h1, h2⟩
      exact ⟨k', tl, h1, by simp only [Entries.keys, List.contains_cons, h2, Bool.or_true]⟩

theorem foldInsert_append (l₁ l₂ : List (List String × PVal)) (acc : Entries) :
    foldInsert acc (l₁ ++ l₂) =
      (foldInsert acc l₁).bind (fun acc' => foldInsert acc' l₂) := by
  simp only [foldInsert, List.foldlM_append]
  rfl

theorem foldInsert_cons (a : List String × PVal) (l : List (List String × PVal))
    (acc : Entries) :
    foldInsert acc (a :: l) =
      (insertItemE acc a.1 a.2).bind (fun acc' => foldInsert acc' l) := by
  simp only [foldInsert, List.foldlM_cons]
  rfl

theorem itemsV_nil_leaf (k : String) : (v : PVal) → isDictV v = false →
    itemsV [] k v = [([k], v)]
  | .vdict _, h => by simp [isDictV] at h
  | .vint n, _ => by simp [itemsV]
  | .vstr s, _ => by simp [itemsV]
  | .vbool b, _ => by simp [itemsV]
  | .vdefault, _ => by simp [itemsV]
  | .vmodel n fs, _ => by simp [itemsV]

theorem foldInsert_under (k : String) (its : List (List String × PVal))
    (hne : ∀ it ∈ its, it.1 ≠ []) :
    ∀ (acc sub sub' : Entries), acc.lookup k = none →
    foldInsert sub its = .ok sub' →
    foldInsert (acc.append (.cons k (.vdict sub) .nil))
        (its.map (fun it => (k :: it.1, it.2))) =
      .ok (acc.append (.cons k (.vdict sub') .nil)) := by
  induction its with
  | nil =>
    intro acc sub sub' hk h
    simp only [foldInsert, List.foldlM_nil] at h
    obtain rfl : sub = sub' := by injection h
    simp only [List.map_nil, foldInsert, List.foldlM_nil]
    rfl
  | cons a its ih =>
    intro acc sub sub' hk h
    obtain ⟨p, v⟩ := a
    rcases p with _ | ⟨p₁, pr⟩
    · exact absurd rfl (hne ([], v) (by simp))
    · rw [foldInsert_cons] at h
      rcases hi : insertItemE sub (p₁ :: pr) v with e | s₁
      · rw [hi] at h
        exact absurd h (by simp [Except.bind])
      · rw [hi] at h
        simp only [Except.bind] at h
        have hlk : (acc.append (.cons k (.vdict sub) .nil)).lookup k =
            some (.vdict sub) := by
          rw [Entries.lookup_append_of_none acc hk]
          simp [Entries.lookup]
        simp only [List.map_cons, foldInsert_cons]
        simp only [insertItemE, hlk, hi, Except.map]
        rw [Entries.set_append_of_none acc hk]
        simp only [Entries.set, if_pos rfl, Except.bind]
        exact ih (fun it hit => hne it (by simp [hit])) acc s₁ sub' hk h

theorem foldInsert_fresh (k : String) (its : List (List String × PVal))
    (hne : ∀ it ∈ its, it.1 ≠ []) (hits : its ≠ [])
    (acc sub : Entries) (hk : acc.lookup k = none)
    (h : foldInsert .nil its = .ok sub) :
    foldInsert acc (its.map (fun it => (k :: it.1, it.2))) =
      .ok (acc.append (.cons k (.vdict sub) .nil)) := by
  rcases its with _ | ⟨⟨p, v⟩, its⟩
  · exact absurd rfl hits
  · rcases p with _ | ⟨p₁, pr⟩
    · exact absurd rfl (hne ([], v) (by simp))
    · rw [foldInsert_cons] at h
      rcases hi : insertItemE .nil (p₁ :: pr) v with e | s₁
      · rw [hi] at h
        exact absurd h (by simp [Except.bind])
      · rw [hi] at h
        simp only [Except.bind] at h
        simp only [List.map_cons, foldInsert_cons]
        simp only [insertItemE, hk, hi, Except.map, Except.bind]
        exact foldInsert_under k its (fun it hit => hne it (by simp [hit]))
          acc s₁ sub hk h

theorem foldInsert_items : (es : Entries) → wfE es = true →
    ∀ acc : Entries, (∀ k, es.keys.contains k = true → acc.lookup k = none) →
    foldInsert acc (itemsE [] es) = .ok (acc.append es)
  | .nil, _, acc, _ => by
    simp only [itemsE, foldInsert, List.foldlM_nil, Entries.append_nil]
    rfl
  | .cons k v rest, h, acc, hacc => by
    simp only [wfE, Bool.and_eq_true, Bool.not_eq_true'] at h
    obtain ⟨⟨hk, hv⟩, hrest⟩ := h
    have hacck : acc.lookup k = none := hacc k (by simp [Entries.keys])
    have haccs : ∀ k', rest.keys.contains k' = true →
        (acc.append (.cons k v .nil)).lookup k' = none := by
      intro k' hk'
      have hkk : k ≠ k' := by
        intro hc
        rw [hc] at hk
        rw [hk'] at hk
        cases hk
      rw [Entries.lookup_append_of_none acc
        (hacc k' (by simp only [Entries.keys, List.contains_cons, hk', Bool.or_true]))]
      simp [Entries.lookup, hkk]
    have happ : (acc.append (.cons k v .nil)).append rest =
        acc.append (.cons k v rest) := by
      rw [Entries.append_assoc]
      rfl
    simp only [itemsE]
    cases hd : isDictV v with
    | false =>
      rw [itemsV_nil_leaf k v hd, List.singleton_append, foldInsert_cons]
      simp only [insertItemE, hacck, Except.bind]
      rw [foldInsert_items rest hrest (acc.append (.cons k v .nil)) haccs, happ]
    | true =>
      rcases v with _ | _ | _ | _ | _ | sub
      case vdict =>
        have hsubne : sub ≠ .nil := by
          intro hc
          rw [hc] at hv
          simp [wfV] at hv
        have hwfsub : wfE sub = true := by
          rcases sub with _ | ⟨k', v', r'⟩
          · exact absurd rfl hsubne
          · simpa [wfV] using hv
        rw [foldInsert_append, itemsV_nil_dict]
        have hsub := foldInsert_items sub hwfsub .nil (fun _ _ => rfl)
        have hsub' : foldInsert .nil (itemsE [] sub) = .ok sub := by
          simpa [Entries.append] using hsub
        rw [foldInsert_fresh k (itemsE [] sub)
          (fun it hit => by
            rcases itemsE_head sub it hit with ⟨k', tl, h1, _⟩
            simp [h1])
          (itemsE_ne_nil sub hsubne hwfsub) acc sub hacck hsub']
        simp only [Except.bind]
        rw [foldInsert_items rest hrest (acc.append (.cons k (.vdict sub) .nil)) haccs,
          happ]
      all_goals simp [isDictV] at hd

/-- C2: for every well-formed Config `c` (a nested string-keyed mapping whose
leaves are non-mapping values, embedded with distinct keys per level as Python
dictionaries guarantee), rebuilding from its item stream is the identity:
`nested_dict_from_items(nested_dict_items(c)) == c`, leaf order included. -/
theorem c2_items_roundtrip (es : Entries) (h : wfE es = true) :
    (nested_dict_items (.vdict es)).bind nested_dict_from_items = .ok es := by
  have hfold := foldInsert_items es h .nil (fun _ _ => rfl)
  simp only [nested_dict_items, nested_dict_from_items, Except.bind]
  simpa [Entries.append] using hfold

/-- Witness for C2 at the config `{a: {b: 3}, c: 2}`. -/
theorem c2_items_roundtrip_witness :
    wfE (.cons "a" (.vdict (.cons "b" (.vint 3) .nil)) (.cons "c" (.vint 2) .nil)) = true ∧
    (nested_dict_items
        (.vdict (.cons "a" (.vdict (.cons "b" (.vint 3) .nil)) (.cons "c" (.vint 2) .nil)))).bind
      nested_dict_from_items =
      .ok (.cons "a" (.vdict (.cons "b" (.vint 3) .nil)) (.cons "c" (.vint 2) .nil)) :=
  ⟨by decide, c2_items_roundtrip _ (by decide)⟩

theorem insert_nil_single : (p : List String) → p ≠ [] → ∀ v : PVal,
    insertItemE .nil p v = .ok (singleAt p v)
  | [], h, _ => absurd rfl h
  | [k], _, v => by simp [insertItemE, Entries.lookup, singleAt, Entries.append]
  | k :: k' :: rest, _, v => by
    simp only [insertItemE, Entries.lookup, singleAt]
    rw [insert_nil_single (k' :: rest) (by simp) v]
    simp [Except.map, Entries.append]

theorem items_single : (p : List String) → p ≠ [] → ∀ v : PVal, isDictV v = false →
    itemsE [] (singleAt p v) = [(p, v)]
  | [], h, _, _ => absurd rfl h
  | [k], _, v, hv => by
    simp only [singleAt, itemsE, itemsV_nil_leaf k v hv, List.append_nil]
  | k :: k' :: rest, _, v, hv => by
    simp only [singleAt, itemsE, itemsV_nil_dict, List.append_nil]
    rw [items_single (k' :: rest) (by simp) v hv]
    simp


/-- Inserting a second single-leaf path into a single-leaf dictionary: the
insertion fails (with the conflict error) exactly when one path is a prefix of
the other (equality included, values ignored), and succeeds otherwise. -/
theorem insert_single_conflict : (p q : List String) → p ≠ [] → q ≠ [] →
    ∀ (v w : PVal), isDictV v = false → isDictV w = false →
    (((p.isPrefixOf q || q.isPrefixOf p) = true →
        insertItemE (singleAt p v) q w = .error .conflictError) ∧
      ((p.isPrefixOf q || q.isPrefixOf p) = false →
        ∃ c, insertItemE (singleAt p v) q w = .ok c))
  | [], _, hp, _, _, _, _, _ => absurd rfl hp
  | _ :: _, [], _, hq, _, _, _, _ => absurd rfl hq
  | [pk], [qk], _, _, v, w, hv, hw => by
    by_cases hk : pk = qk
    · subst hk
      have hlk : (Entries.cons pk v .nil).lookup pk = some v := by simp [Entries.lookup]
      constructor
      · intro _
        simp [singleAt, insertItemE, hlk]
      · intro hpre
        simp [List.isPrefixOf] at hpre
    · have hlk : (Entries.cons pk v .nil).lookup qk = none := by
        simp [Entries.lookup, hk]
      constructor
      · intro hpre
        simp [List.isPrefixOf, hk, Ne.symm hk] at hpre
      · intro _
        exact ⟨(Entries.cons pk v .nil).append (.cons qk w .nil),
          by simp [singleAt, insertItemE, hlk]⟩
  | [pk], qk :: q₂ :: qr, _, _, v, w, hv, hw => by
    by_cases hk : pk = qk
    · subst hk
      have hlk : (Entries.cons pk v .nil).lookup pk = some v := by simp [Entries.lookup]
      constructor
      · intro _
        simp only [singleAt, insertItemE, hlk]
        rcases v with _ | _ | _ | _ | _ | sub <;> first
          | rfl
          | simp [isDictV] at hv
      · intro hpre
        simp [List.isPrefixOf] at hpre
    · have hlk : (Entries.cons pk v .nil).lookup qk = none := by
        simp [Entries.lookup, hk]
      constructor
      · intro hpre
        simp [List.isPrefixOf, hk, Ne.symm hk] at hpre
      · intro _
        refine ⟨(Entries.cons pk v .nil).append
          (.cons qk (.vdict (singleAt (q₂ :: qr) w)) .nil), ?_⟩
        simp only [singleAt, insertItemE, hlk]
        rw [insert_nil_single (q₂ :: qr) (by simp) w]
        rfl
  | pk :: p₂ :: pr, [qk], _, _, v, w, hv, hw => by
    by_cases hk : pk = qk
    · subst hk
      have hlk : (Entries.cons pk (.vdict (singleAt (p₂ :: pr) v)) .nil).lookup pk =
          some (.vdict (singleAt (p₂ :: pr) v)) := by simp [Entries.lookup]
      constructor
      · intro _
        simp [singleAt, insertItemE, hlk]
      · intro hpre
        simp [List.isPrefixOf] at hpre
    · have hlk : (Entries.cons pk (.vdict (singleAt (p₂ :: pr) v)) .nil).lookup qk =
          none := by simp [Entries.lookup, hk]
      constructor
      · intro hpre
        simp [List.isPrefixOf, hk, Ne.symm hk] at hpre
      · intro _
        exact ⟨(Entries.cons pk (.vdict (singleAt (p₂ :: pr) v)) .nil).append
            (.cons qk w .nil),
          by simp [singleAt, insertItemE, hlk]⟩
  | pk :: p₂ :: pr, qk :: q₂ :: qr, _, _, v, w, hv, hw => by
    have ih := insert_single_conflict (p₂ :: pr) (q₂ :: qr) (by simp) (by simp) v w hv hw
    by_cases hk : pk = qk
    · subst hk
      have hlk : (Entries.cons pk (.vdict (singleAt (p₂ :: pr) v)) .nil).lookup pk =
          some (.vdict (singleAt (p₂ :: pr) v)) := by simp [Entries.lookup]
      have hcond : ((pk :: p₂ :: pr).isPrefixOf (pk :: q₂ :: qr) ||
          (pk :: q₂ :: qr).isPrefixOf (pk :: p₂ :: pr)) =
          ((p₂ :: pr).isPrefixOf (q₂ :: qr) || (q₂ :: qr).isPrefixOf (p₂ :: pr)) := by
        simp [List.isPrefixOf]
      constructor
      · intro hpre
        rw [hcond] at hpre
        simp only [singleAt, insertItemE, hlk]
        rw [ih.1 hpre]
        rfl
      · intro hpre
        rw [hcond] at hpre
        obtain ⟨c, hc⟩ := ih.2 hpre
        refine ⟨(Entries.cons pk (.vdict (singleAt (p₂ :: pr) v)) .nil).set pk
          (.vdict c), ?_⟩
        simp only [singleAt, insertItemE, hlk]
        rw [hc]
        rfl
    · have hlk : (Entries.cons pk (.vdict (singleAt (p₂ :: pr) v)) .nil).lookup qk =
          none := by simp [Entries.lookup, hk]
      constructor
      · intro hpre
        simp [List.isPrefixOf, hk, Ne.symm hk] at hpre
      · intro _
        refine ⟨(Entries.cons pk (.vdict (singleAt (p₂ :: pr) v)) .nil).append
          (.cons qk (.vdict (singleAt (q₂ :: qr) w)) .nil), ?_⟩
        simp only [singleAt, insertItemE, hlk]
        rw [insert_nil_single (q₂ :: qr) (by simp) w]
        rfl

theorem from_items_single (p : List String) (hp : p ≠ []) (v : PVal) :
    nested_dict_from_items [(p, v)] = .ok (singleAt p v) := by
  simp only [nested_dict_from_items, foldInsert, List.foldlM_cons, List.foldlM_nil,
    insert_nil_single p hp v]
  rfl

/-- C5: merging the two single-leaf configs built from `(p, v)` and `(q, w)`
with `merge_nested_dicts` (no overwrite) fails with the conflict error if and
only if one strict path is a prefix of the other (equality included — even
when `p = q` and `v = w`), and succeeds for any other pair of paths. -/
theorem c5_merge_single_conflict (p q : List String) (v w : PVal)
    (hp : p ≠ []) (hq : q ≠ []) (hv : isDictV v = false) (hw : isDictV w = false)
    (cp cq : Entries)
    (hcp : nested_dict_from_items [(p, v)] = .ok cp)
    (hcq : nested_dict_from_items [(q, w)] = .ok cq) :
    ((p.isPrefixOf q || q.isPrefixOf p) = true →
      merge_nested_dicts [.vdict cp, .vdict cq] false = .error .conflictError) ∧
    ((p.isPrefixOf q || q.isPrefixOf p) = false →
      ∃ c, merge_nested_dicts [.vdict cp, .vdict cq] false = .ok (.vdict c)) := by
  rw [from_items_single p hp v] at hcp
  rw [from_items_single q hq w] at hcq
  obtain rfl : singleAt p v = cp := by injection hcp
  obtain rfl : singleAt q w = cq := by injection hcq
  have hmerge : merge_nested_dicts [.vdict (singleAt p v), .vdict (singleAt q w)] false =
      (insertItemE (singleAt p v) q w).map .vdict := by
    simp only [merge_nested_dicts, List.mapM_cons, List.mapM_nil, nested_dict_items,
      bind, Except.bind, pure, Except.pure, List.flatten, List.append_nil,
      Bool.false_eq_true, if_false, items_single p hp v hv, items_single q hq w hw,
      List.singleton_append, nested_dict_from_items, foldInsert,
      List.foldlM_cons, List.foldlM_nil, insert_nil_single p hp v]
    cases insertItemE (singleAt p v) q w with
    | ok c => rfl
    | error e => rfl
  have hconf := insert_single_conflict p q hp hq v w hv hw
  constructor
  · intro hpre
    rw [hmerge, hconf.1 hpre]
    rfl
  · intro hpre
    obtain ⟨c, hc⟩ := hconf.2 hpre
    refine ⟨c, ?_⟩
    rw [hmerge, hc]
    rfl

/-- C1 counterexample: in chainer mode only the first chained element is
inspected.  Chaining a config list with a list containing the non-mapping
value `5` returns the chained sequence successfully even though its second
element is not a mapping, where the claim requires an `InvalidChainResult`
failure regardless of the position of the non-mapping element. -/
theorem c1_chain_counterexample :
    config_chain [[.vdict (.cons "a" (.vint 1) .nil)], [.vint 5]] =
      .ok [.vdict (.cons "a" (.vint 1) .nil), .vint 5] ∧
    isDictV (.vint 5) = false :=
  ⟨rfl, rfl⟩

/-- C1 amended: in chainer mode of `config_combine` (hence for `config_chain`
and `config_roundrobin`), only the first element of the chained sequence is
checked: when the chained result is nonempty, the call fails with
`InvalidChainResult` exactly when that first element is not a mapping, and
otherwise returns the whole sequence with no check of the later elements. -/
theorem c1_chainer_checks_first_element_only (cs : List (List PVal))
    (g : List (List PVal) → List PVal) (r : PVal) (rs : List PVal)
    (h : g cs = r :: rs) :
    config_combine cs none (some g) =
      if isDictV r then .ok (r :: rs) else .error .invalidChainResult := by
  simp only [config_combine, h]

/-- Witness for the amended C1: a single non-mapping element fails the check,
a mapping first element lets a non-mapping tail through. -/
theorem c1_chainer_checks_first_element_only_witness :
    config_combine [[.vint 5]] none (some List.flatten) = .error .invalidChainResult ∧
    config_combine [[.vdict .nil], [.vint 5]] none (some List.flatten) =
      .ok [.vdict .nil, .vint 5] := by
  constructor
  · have h := c1_chainer_checks_first_element_only [[.vint 5]] List.flatten
      (.vint 5) [] (by rfl)
    simpa using h
  · have h := c1_chainer_checks_first_element_only [[.vdict .nil], [.vint 5]]
      List.flatten (.vdict .nil) [.vint 5] (by rfl)
    simpa using h

/-- C10: when the chainer applied to the inputs yields an empty sequence, the
inspection of the first chained element raises `IndexError` instead of
returning the empty list. -/
theorem c10_chainer_empty_raises_index_error (cs : List (List PVal))
    (g : List (List PVal) → List PVal) (h : g cs = []) :
    config_combine cs none (some g) = .error .indexError := by
  simp only [config_combine, h]

/-- Witness for C10: `config_chain` of two empty config lists. -/
theorem c10_chainer_empty_raises_index_error_witness :
    config_chain [[], []] = .error .indexError :=
  c10_chainer_empty_raises_index_error [[], []] List.flatten (by rfl)

/-- C9: `config_product` is the Cartesian product of its input config lists:
every combination of one config from each input merged without overwrite, in
nested-loop order with the rightmost input varying fastest; in particular
`config_product(field("a",[1,2]), field("b",[3,4]))` is the four merged
configs in row-major order. -/
theorem c9_config_product_cartesian :
    (∀ cfgs : List (List PVal), config_product cfgs =
      (listProduct cfgs).mapM (fun combo => merge_nested_dicts combo false)) ∧
    (do
      let as ← field (.str "a") [.vint 1, .vint 2] true
      let bs ← field (.str "b") [.vint 3, .vint 4] true
      config_product [as, bs]) =
      .ok [.vdict (.cons "a" (.vint 1) (.cons "b" (.vint 3) .nil)),
        .vdict (.cons "a" (.vint 1) (.cons "b" (.vint 4) .nil)),
        .vdict (.cons "a" (.vint 2) (.cons "b" (.vint 3) .nil)),
        .vdict (.cons "a" (.vint 2) (.cons "b" (.vint 4) .nil))] :=
  ⟨fun _ => rfl, rfl⟩

/-- Witness for C5 at `p = ["a"]`, `q = ["a", "b"]`: a strict prefix, so the
merge fails with the conflict error. -/
theorem c5_merge_single_conflict_witness :
    (["a"].isPrefixOf ["a", "b"] || ["a", "b"].isPrefixOf ["a"]) = true ∧
    merge_nested_dicts [.vdict (.cons "a" (.vint 1) .nil),
        .vdict (.cons "a" (.vdict (.cons "b" (.vint 2) .nil)) .nil)] false =
      .error .conflictError :=
  ⟨by decide,
    (c5_merge_single_conflict ["a"] ["a", "b"] (.vint 1) (.vint 2)
      (by decide) (by decide) rfl rfl
      (.cons "a" (.vint 1) .nil)
      (.cons "a" (.vdict (.cons "b" (.vint 2) .nil)) .nil)
      rfl rfl).1 (by decide)⟩

theorem itemsV_head (k : String) : (v : PVal) → ∀ it ∈ itemsV [] k v, ∃ tl, it.1 = k :: tl
  | .vdict sub => by
    rw [itemsV_nil_dict]
    intro it hit
    rcases List.mem_map.mp hit with ⟨it', _, rfl⟩
    exact ⟨it'.1, rfl⟩
  | .vint n => by intro it hit; simp only [itemsV, List.nil_append, List.mem_singleton] at hit; exact ⟨[], by rw [hit]⟩
  | .vstr s => by intro it hit; simp only [itemsV, List.nil_append, List.mem_singleton] at hit; exact ⟨[], by rw [hit]⟩
  | .vbool b => by intro it hit; simp only [itemsV, List.nil_append, List.mem_singleton] at hit; exact ⟨[], by rw [hit]⟩
  | .vdefault => by intro it hit; simp only [itemsV, List.nil_append, List.mem_singleton] at hit; exact ⟨[], by rw [hit]⟩
  | .vmodel n fs => by intro it hit; simp only [itemsV, List.nil_append, List.mem_singleton] at hit; exact ⟨[], by rw [hit]⟩

theorem itemsV_filter_other (k k₁ : String) (q : List String) (v : PVal) (h : k₁ ≠ k) :
    (itemsV [] k₁ v).filter (fun it => !((k :: q).isPrefixOf it.1)) = itemsV [] k₁ v := by
  apply List.filter_eq_self.mpr
  intro it hit
  rcases itemsV_head k₁ v it hit with ⟨tl, htl⟩
  simp [htl, List.isPrefixOf, Ne.symm h]

theorem itemsV_filter_self (k : String) (q : List String) (v : PVal) :
    (itemsV [] k v).filter (fun it => !((k :: q).isPrefixOf it.1)) =
      (itemsV [] k v).filter (fun it => !(q.isPrefixOf it.1.tail)) := by
  apply List.filter_congr
  intro it hit
  rcases itemsV_head k v it hit with ⟨tl, htl⟩
  simp [htl, List.isPrefixOf]

theorem items_filter_other (k : String) (q : List String) : (es : Entries) →
    es.keys.contains k = false →
    (itemsE [] es).filter (fun it => !((k :: q).isPrefixOf it.1)) = itemsE [] es
  | .nil, _ => rfl
  | .cons k₁ v₁ rest, h => by
    simp only [Entries.keys, List.contains_cons, Bool.or_eq_false_iff] at h
    have hk : k₁ ≠ k := by
      intro hc
      rw [hc] at h
      simpa using h.1
    simp only [itemsE, List.filter_append]
    rw [itemsV_filter_other k k₁ q v₁ hk, items_filter_other k q rest h.2]

theorem items_filter_leaf_self (k : String) (v : PVal) (hv : isDictV v = false) :
    (itemsV [] k v).filter (fun it => !(([k] : List String).isPrefixOf it.1)) = [] := by
  rw [itemsV_nil_leaf k v hv]
  simp [List.isPrefixOf]

theorem items_filter_dict_self (k : String) (sub : Entries) :
    (itemsV [] k (.vdict sub)).filter
      (fun it => !(([k] : List String).isPrefixOf it.1)) = [] := by
  rw [itemsV_nil_dict]
  apply List.filter_eq_nil_iff.mpr
  intro it hit
  rcases List.mem_map.mp hit with ⟨it', _, rfl⟩
  simp [List.isPrefixOf]

theorem items_remove (k : String) : (c : Entries) → wfE c = true →
    itemsE [] (c.remove k) =
      (itemsE [] c).filter (fun it => !(([k] : List String).isPrefixOf it.1))
  | .nil, _ => rfl
  | .cons k₁ v₁ rest, h => by
    simp only [wfE, Bool.and_eq_true, Bool.not_eq_true'] at h
    obtain ⟨⟨hk₁, hv₁⟩, hrest⟩ := h
    by_cases hk : k₁ = k
    · subst hk
      simp only [Entries.remove, if_pos rfl, itemsE, List.filter_append]
      have hother : (itemsE [] rest).filter
          (fun it => !(([k₁] : List String).isPrefixOf it.1)) = itemsE [] rest := by
        rw [show ([k₁] : List String) = k₁ :: [] from rfl]
        exact items_filter_other k₁ [] rest hk₁
      have hself : (itemsV [] k₁ v₁).filter
          (fun it => !(([k₁] : List String).isPrefixOf it.1)) = [] := by
        rcases v₁ with n | s | b | _ | ⟨n, fs⟩ | sub
        · exact items_filter_leaf_self k₁ _ rfl
        · exact items_filter_leaf_self k₁ _ rfl
        · exact items_filter_leaf_self k₁ _ rfl
        · exact items_filter_leaf_self k₁ _ rfl
        · exact items_filter_leaf_self k₁ _ rfl
        · exact items_filter_dict_self k₁ sub
      rw [hother, hself]
      simp
    · simp only [Entries.remove, if_neg hk, itemsE, List.filter_append]
      rw [show ([k] : List String) = k :: [] from rfl,
        itemsV_filter_other k k₁ [] v₁ hk, items_remove k rest hrest]

theorem wf_lookup_dict : (c : Entries) → wfE c = true → c.lookup k = some (.vdict sub) →
    wfE sub = true ∧ sub ≠ .nil
  | .nil, _, h => by simp [Entries.lookup] at h
  | .cons k₁ v₁ rest, hw, h => by
    simp only [wfE, Bool.and_eq_true] at hw
    simp only [Entries.lookup] at h
    by_cases hk : k₁ = k
    · rw [if_pos hk] at h
      obtain rfl : v₁ = .vdict sub := by injection h
      have hv := hw.1.2
      rcases sub with _ | ⟨k₂, v₂, r₂⟩
      · simp [wfV] at hv
      · exact ⟨by simpa [wfV] using hv, by intro hc; cases hc⟩
    · rw [if_neg hk] at h
      exact wf_lookup_dict rest hw.2 h

theorem items_set_dict (k : String) (q : List String) (sub sub' : Entries)
    (hsub : itemsE [] sub' = (itemsE [] sub).filter (fun it => !(q.isPrefixOf it.1))) :
    (c : Entries) → wfE c = true → c.lookup k = some (.vdict sub) →
    itemsE [] (c.set k (.vdict sub')) =
      (itemsE [] c).filter (fun it => !((k :: q).isPrefixOf it.1))
  | .nil, _, h => by simp [Entries.lookup] at h
  | .cons k₁ v₁ rest, hw, h => by
    simp only [wfE, Bool.and_eq_true, Bool.not_eq_true'] at hw
    obtain ⟨⟨hk₁, hv₁⟩, hrest⟩ := hw
    simp only [Entries.lookup] at h
    by_cases hk : k₁ = k
    · subst hk
      rw [if_pos rfl] at h
      obtain rfl : v₁ = .vdict sub := by injection h
      simp only [Entries.set, if_pos rfl, itemsE, List.filter_append]
      rw [items_filter_other k₁ q rest hk₁]
      congr 1
      rw [itemsV_nil_dict, itemsV_nil_dict, hsub, List.filter_map]
      congr 1
      apply List.filter_congr
      intro it _
      simp [Function.comp, List.isPrefixOf]
    · rw [if_neg hk] at h
      simp only [Entries.set, if_neg hk, itemsE, List.filter_append]
      rw [itemsV_filter_other k k₁ q v₁ hk,
        items_set_dict k q sub sub' hsub rest hrest h]

theorem drop_items : (p : List String) → (c : Entries) → wfE c = true → ∀ c',
    nested_dict_drop c p = .ok c' →
    itemsE [] c' = (itemsE [] c).filter (fun it => !(p.isPrefixOf it.1))
  | [], c, _, c', h => by simp [nested_dict_drop] at h
  | [k], c, hw, c', h => by
    simp only [nested_dict_drop] at h
    rcases hl : c.lookup k with _ | v
    · rw [hl] at h
      cases h
    · rw [hl] at h
      obtain rfl : c.remove k = c' := by injection h
      exact items_remove k c hw
  | k :: k' :: rest, c, hw, c', h => by
    simp only [nested_dict_drop] at h
    split at h
    · cases h
    · rename_i sub heq
      rcases hd : nested_dict_drop sub (k' :: rest) with e | sub'
      · rw [hd] at h
        cases h
      · rw [hd] at h
        obtain rfl : c.set k (.vdict sub') = c' := by
          simpa [Except.map] using h
        obtain ⟨hwsub, _⟩ := wf_lookup_dict c hw heq
        exact items_set_dict k (k' :: rest) sub sub'
          (drop_items (k' :: rest) sub hwsub sub' hd) c hw heq
    · cases h

theorem drop_replace_same : (p : List String) → (c : Entries) → (v : PVal) →
    (nested_dict_drop c p).map (fun _ => ()) =
      (nested_dict_replace c p v).map (fun _ => ())
  | [], _, _ => rfl
  | [k], c, v => by
    simp only [nested_dict_drop, nested_dict_replace]
    cases c.lookup k <;> rfl
  | k :: k' :: rest, c, v => by
    have hcomp : ∀ (X : Except Err Entries) (f : Entries → Entries),
        (X.map f).map (fun _ => ()) = X.map (fun _ => ()) := by
      intro X f
      cases X <;> rfl
    simp only [nested_dict_drop, nested_dict_replace]
    rcases c.lookup k with _ | w
    · rfl
    · rcases w with n | s | b | _ | ⟨n, fs⟩ | sub
      case vdict =>
        show (Except.map (fun sub' => c.set k (.vdict sub'))
            (nested_dict_drop sub (k' :: rest))).map (fun _ => ()) =
          (Except.map (fun sub' => c.set k (.vdict sub'))
            (nested_dict_replace sub (k' :: rest) v)).map (fun _ => ())
        rw [hcomp, hcomp]
        exact drop_replace_same (k' :: rest) sub v
      all_goals rfl

/-- C4 (the `drop` implementation itself is modelled from the spec, its code
being absent from the provided sources): `nested_dict_drop` follows exactly
the traversal and failure rules of the source's `nested_dict_replace` — the
two return the same error on the same input (`InvalidPath` on the empty path,
`KeyNotFound` on a missing intermediate or final key, `TypeMismatch` on a
non-mapping intermediate) and succeed together — and on success it returns
the config with the key at the path removed: the result's items are exactly
the input's items except those under the dropped path.  The embedding is the
out-of-place computation, which leaves the (immutable) input unchanged. -/
theorem c4_drop_spec (c : Entries) (p : List String) (v : PVal) (hwf : wfE c = true) :
    ((nested_dict_drop c p).map (fun _ => ()) =
      (nested_dict_replace c p v).map (fun _ => ())) ∧
    (∀ c', nested_dict_drop c p = .ok c' →
      itemsE [] c' = (itemsE [] c).filter (fun it => !(p.isPrefixOf it.1))) :=
  ⟨drop_replace_same p c v, fun c' h => drop_items p c hwf c' h⟩

/-- Witness for C4 at `{a: 5, b: {c: 6, d: 7}}`, dropping path `b.c`. -/
theorem c4_drop_spec_witness :
    ((nested_dict_drop
        (.cons "a" (.vint 5)
          (.cons "b" (.vdict (.cons "c" (.vint 6) (.cons "d" (.vint 7) .nil))) .nil))
        ["b", "c"]).map (fun _ => ()) =
      (nested_dict_replace
        (.cons "a" (.vint 5)
          (.cons "b" (.vdict (.cons "c" (.vint 6) (.cons "d" (.vint 7) .nil))) .nil))
        ["b", "c"] (.vint 0)).map (fun _ => ())) ∧
    itemsE [] (.cons "a" (.vint 5) (.cons "b" (.vdict (.cons "d" (.vint 7) .nil)) .nil)) =
      (itemsE []
        (.cons "a" (.vint 5)
          (.cons "b" (.vdict (.cons "c" (.vint 6) (.cons "d" (.vint 7) .nil))) .nil))).filter
        (fun it => !((["b", "c"] : List String).isPrefixOf it.1)) :=
  ⟨(c4_drop_spec
      (.cons "a" (.vint 5)
        (.cons "b" (.vdict (.cons "c" (.vint 6) (.cons "d" (.vint 7) .nil))) .nil))
      ["b", "c"] (.vint 0) (by decide)).1,
    (c4_drop_spec
      (.cons "a" (.vint 5)
        (.cons "b" (.vdict (.cons "c" (.vint 6) (.cons "d" (.vint 7) .nil))) .nil))
      ["b", "c"] (.vint 0) (by decide)).2
      (.cons "a" (.vint 5) (.cons "b" (.vdict (.cons "d" (.vint 7) .nil)) .nil)) rfl⟩

/-- C8: `initialize` prunes every `DefaultValue` leaf from every config entry
before construction, so a field bound to the sentinel takes the schema's own
declared default: for a schema with field `x : int` defaulting to `d`,
`initialize(Schema, field("x", [a, DefaultValue, b]))` yields instances with
`x` equal to `a`, `d` and `b` respectively — index 1 carries the declared
default. -/
theorem c8_default_value_pruned (sname : String) (d a b : Int) :
    (do
      let cfgs ← field (.str "x") [.vint a, .vdefault, .vint b] true
      initModels (.mk sname true false (.cons "x" (.simple .tint) (some (.vint d)) .nil))
        cfgs none none true) =
      .ok [.vmodel sname (.cons "x" (.vint a) .nil),
        .vmodel sname (.cons "x" (.vint d) .nil),
        .vmodel sname (.cons "x" (.vint b) .nil)] := by
  simp [field, normalize_path, strSplitDots, splitDots, isValidKey, isHashableV,
    nested_dict_at, nested_dict_from_items, foldInsert, insertItemE, Entries.lookup,
    Entries.append, initModels, check_model, checkLoop, enqFields, raise_warn_ignore,
    PModel.name, PModel.extraForbid, PModel.arbitraryTypes, PModel.fields,
    _config_prune_default, nested_dict_items, items_skip, isDefaultV, itemsE, itemsV,
    validateModel, safeUnionData, checkExtraKeys, coreFields, validateAnn, validateTy,
    lookupAnnD, fieldNames, Entries.keys, bind, Except.bind, pure, Except.pure,
    List.mapM.loop, Except.map]

/-- Class names of the model alternatives of a union member list. -/
def modelNamesOfTys : PTys → List String
  | .nil => []
  | .cons (.tmodel m) rest => m.name :: modelNamesOfTys rest
  | .cons _ rest => modelNamesOfTys rest

theorem validateModel_dict_shape (m : PModel) (d : Entries) (r : PVal)
    (h : validateModel m (.vdict d) = .ok r) : ∃ fv, r = .vmodel m.name fv := by
  simp only [validateModel, bind, Except.bind] at h
  split at h
  · cases h
  · split at h
    · cases h
    · split at h
      · cases h
      · rename_i fv heq
        refine ⟨fv, ?_⟩
        injection h with h
        rw [← h]

theorem collectMatches_cons_model_ok (alt : PModel) (rest : PTys) (v : PVal)
    (inst₀ : PVal) (hv : validateModel alt v = .ok inst₀) :
    collectMatches (.cons (.tmodel alt) rest) v =
      (collectMatches rest v).map (fun ms => (alt.name, inst₀) :: ms) := by
  simp only [collectMatches, hv]

theorem collectMatches_cons_model_key (alt : PModel) (rest : PTys) (v : PVal)
    (hv : validateModel alt v = .error .keyError) :
    collectMatches (.cons (.tmodel alt) rest) v = .error .keyError := by
  simp only [collectMatches, hv]

theorem collectMatches_cons_model_err (alt : PModel) (rest : PTys) (v : PVal)
    (e : Err) (hv : validateModel alt v = .error e) (he : e ≠ .keyError) :
    collectMatches (.cons (.tmodel alt) rest) v = collectMatches rest v := by
  simp only [collectMatches, hv]

theorem collectMatches_cons_nonmodel (t : PTy) (rest : PTys) (v : PVal)
    (ht : ∀ m, t ≠ .tmodel m) :
    collectMatches (.cons t rest) v = collectMatches rest v := by
  rcases t with _ | _ | _ | ⟨n, hh⟩ | alt
  · simp only [collectMatches]
  · simp only [collectMatches]
  · simp only [collectMatches]
  · simp only [collectMatches]
  · exact absurd rfl (ht alt)

theorem tryTys_cons_ok (t : PTy) (rest : PTys) (v r : PVal)
    (h : validateTy t v = .ok r) : tryTys (.cons t rest) v = .ok r := by
  simp only [tryTys, h]

theorem tryTys_cons_err (t : PTy) (rest : PTys) (v : PVal) (e : Err)
    (h : validateTy t v = .error e) (he : e ≠ .keyError) :
    tryTys (.cons t rest) v = tryTys rest v := by
  simp only [tryTys, h]

theorem validateTy_model_instance (alt : PModel) (n : String) (fv : Entries) :
    validateTy (.tmodel alt) (.vmodel n fv) =
      if n = alt.name then .ok (.vmodel n fv) else .error .validationError := by
  simp only [validateTy, validateModel]

theorem collectMatches_shape : (ts : PTys) → (d : Entries) → (nm : String) →
    (inst : PVal) → (ms' : List (String × PVal)) →
    collectMatches ts (.vdict d) = .ok ((nm, inst) :: ms') →
    (∃ fv, inst = .vmodel nm fv) ∧ nm ∈ modelNamesOfTys ts
  | .nil, d, nm, inst, ms', h => by
    simp only [collectMatches] at h
    cases h
  | .cons t rest, d, nm, inst, ms', h => by
    rcases ht : t with _ | _ | _ | ⟨n, hh⟩ | alt
    case tmodel =>
      subst ht
      rcases hv : validateModel alt (.vdict d) with e | inst₀
      · by_cases he : e = .keyError
        · subst he
          rw [collectMatches_cons_model_key alt rest _ hv] at h
          cases h
        · rw [collectMatches_cons_model_err alt rest _ e hv he] at h
          rcases collectMatches_shape rest d nm inst ms' h with ⟨hfv, hmem⟩
          exact ⟨hfv, by simp [modelNamesOfTys, hmem]⟩
      · rw [collectMatches_cons_model_ok alt rest _ inst₀ hv] at h
        rcases hr : collectMatches rest (.vdict d) with e' | ms₀
        · rw [hr] at h
          cases h
        · rw [hr] at h
          simp only [Except.map, Except.ok.injEq, List.cons.injEq, Prod.mk.injEq] at h
          obtain ⟨⟨hnm, hinst⟩, _⟩ := h
          obtain ⟨fv, hfv⟩ := validateModel_dict_shape alt d inst₀ hv
          refine ⟨⟨fv, by rw [← hinst, hfv, hnm]⟩, ?_⟩
          simp [modelNamesOfTys, hnm]
    all_goals {
      rw [collectMatches_cons_nonmodel t rest _ (by intro m hc; rw [ht] at hc; cases hc)] at h
      rcases collectMatches_shape rest d nm inst ms' h with ⟨hfv, hmem⟩
      subst ht
      exact ⟨hfv, by simpa [modelNamesOfTys] using hmem⟩
    }

theorem collectMatches_single_try : (ts : PTys) → (d : Entries) → (nm : String) →
    (inst : PVal) →
    collectMatches ts (.vdict d) = .ok [(nm, inst)] →
    (modelNamesOfTys ts).Nodup →
    tryTys ts inst = .ok inst
  | .nil, d, nm, inst, h, _ => by
    simp only [collectMatches] at h
    cases h
  | .cons t rest, d, nm, inst, h, hnd => by
    obtain ⟨⟨fv, hfv⟩, _⟩ := collectMatches_shape (.cons t rest) d nm inst [] h
    rcases ht : t with _ | _ | _ | ⟨n, hsh⟩ | alt
    case tmodel =>
      subst ht
      rcases hv : validateModel alt (.vdict d) with e | inst₀
      · by_cases he : e = .keyError
        · subst he
          rw [collectMatches_cons_model_key alt rest _ hv] at h
          cases h
        · rw [collectMatches_cons_model_err alt rest _ e hv he] at h
          have hnames : modelNamesOfTys (.cons (.tmodel alt) rest) =
              alt.name :: modelNamesOfTys rest := rfl
          have hnd' : (modelNamesOfTys rest).Nodup :=
            (List.nodup_cons.mp (hnames ▸ hnd)).2
          have ih := collectMatches_single_try rest d nm inst h hnd'
          obtain ⟨_, hmem'⟩ := collectMatches_shape rest d nm inst [] h
          have hne : nm ≠ alt.name := by
            intro hc
            have halt := (List.nodup_cons.mp (hnames ▸ hnd)).1
            rw [← hc] at halt
            exact halt hmem'
          rw [tryTys_cons_err (.tmodel alt) rest inst .validationError
            (by rw [hfv, validateTy_model_instance, if_neg hne])
            (by intro hc; cases hc)]
          exact ih
      · rw [collectMatches_cons_model_ok alt rest _ inst₀ hv] at h
        rcases hr : collectMatches rest (.vdict d) with e' | ms₀
        · rw [hr] at h
          cases h
        · rw [hr] at h
          simp only [Except.map, Except.ok.injEq, List.cons.injEq, Prod.mk.injEq] at h
          obtain ⟨⟨hnm, hinst⟩, _⟩ := h
          have hvt : validateTy (.tmodel alt) inst = .ok inst := by
            rw [hfv, validateTy_model_instance, if_pos (by rw [hnm])]
          exact tryTys_cons_ok _ rest inst inst hvt
    case tint =>
      subst ht
      rw [collectMatches_cons_nonmodel _ rest _ (by intro m hc; cases hc)] at h
      have ih := collectMatches_single_try rest d nm inst h
        (by simpa [modelNamesOfTys] using hnd)
      rw [tryTys_cons_err .tint rest inst .validationError (by rw [hfv]; simp [validateTy])
        (by intro hc; cases hc)]
      exact ih
    case tstr =>
      subst ht
      rw [collectMatches_cons_nonmodel _ rest _ (by intro m hc; cases hc)] at h
      have ih := collectMatches_single_try rest d nm inst h
        (by simpa [modelNamesOfTys] using hnd)
      rw [tryTys_cons_err .tstr rest inst .validationError (by rw [hfv]; simp [validateTy])
        (by intro hc; cases hc)]
      exact ih
    case tbool =>
      subst ht
      rw [collectMatches_cons_nonmodel _ rest _ (by intro m hc; cases hc)] at h
      have ih := collectMatches_single_try rest d nm inst h
        (by simpa [modelNamesOfTys] using hnd)
      rw [tryTys_cons_err .tbool rest inst .validationError (by rw [hfv]; simp [validateTy])
        (by intro hc; cases hc)]
      exact ih
    case tother =>
      subst ht
      exact tryTys_cons_ok _ rest inst inst (by simp [validateTy])

theorem safeUnionData_single_union (f : String) (alts : PTys) (d : Entries)
    (res : Except Err Entries)
    (hres : (match collectMatches alts (.vdict d) with
      | .error e => .error e
      | .ok [] => .ok (Entries.cons f (.vdict d) .nil)
      | .ok [(_, inst)] => .ok (Entries.cons f inst .nil)
      | .ok ms => .error (.ambiguousUnion (ms.map Prod.fst))) = res) :
    safeUnionData (.cons f (.union alts false) none .nil)
      (.cons f (.vdict d) .nil) = res := by
  have hlk : lookupAnnD (.cons f (.union alts false) none .nil) f =
      some (.union alts false) := by
    simp [lookupAnnD]
  simp only [safeUnionData]
  split
  · rename_i heq
    rw [hlk] at heq
    cases heq
  · rename_i t heq
    rw [hlk] at heq
    injection heq with heq
    cases heq
  · rename_i ts disc heq
    rw [hlk] at heq
    injection heq with heq
    injection heq with h1 h2
    subst h1
    subst h2
    simp only [Bool.false_eq_true, if_false]
    rcases hcoll : collectMatches alts (.vdict d) with e | ms
    · rw [hcoll] at hres
      simp only [← hres]
      rfl
    · rw [hcoll] at hres
      rcases ms with _ | ⟨⟨nm₁, i₁⟩, ms₁⟩
      · simp only [← hres, bind, Except.bind, safeUnionData]
      · rcases ms₁ with _ | ⟨⟨nm₂, i₂⟩, ms₂⟩
        · simp only [← hres, bind, Except.bind, safeUnionData]
        · simp only [← hres, bind, Except.bind]

/-- C7: constructing a schema instance whose union-typed field (no
discriminator) receives a raw mapping validates the mapping in isolation
against every model alternative: more than one match fails construction with
`AmbiguousUnion` naming all matching alternatives; exactly one match succeeds
and the field holds that alternative's validated instance.  The model
alternatives are assumed to have distinct class names (the embedding
identifies classes by name). -/
theorem c7_union_ambiguity (mname f : String) (alts : PTys) (d : Entries)
    (hnd : (modelNamesOfTys alts).Nodup) :
    (∀ m₁ m₂ ms'', collectMatches alts (.vdict d) = .ok (m₁ :: m₂ :: ms'') →
      validateModel (.mk mname true false (.cons f (.union alts false) none .nil))
          (.vdict (.cons f (.vdict d) .nil)) =
        .error (.ambiguousUnion ((m₁ :: m₂ :: ms'').map Prod.fst))) ∧
    (∀ nm inst, collectMatches alts (.vdict d) = .ok [(nm, inst)] →
      validateModel (.mk mname true false (.cons f (.union alts false) none .nil))
          (.vdict (.cons f (.vdict d) .nil)) =
        .ok (.vmodel mname (.cons f inst .nil))) := by
  constructor
  · intro m₁ m₂ ms'' hcoll
    have hsu := safeUnionData_single_union f alts d
      (.error (.ambiguousUnion ((m₁ :: m₂ :: ms'').map Prod.fst)))
      (by rw [hcoll])
    simp only [validateModel, PModel.fields, bind, Except.bind, hsu]
  · intro nm inst hcoll
    have htry := collectMatches_single_try alts d nm inst hcoll hnd
    have hsu := safeUnionData_single_union f alts d (.ok (.cons f inst .nil))
      (by rw [hcoll])
    have hx : checkExtraKeys (.cons f (.union alts false) none .nil)
        (.cons f inst .nil) = .ok () := by
      simp [checkExtraKeys, Entries.keys, fieldNames]
    have hcf : coreFields (.cons f (.union alts false) none .nil)
        (.cons f inst .nil) = .ok (.cons f inst .nil) := by
      simp [coreFields, Entries.lookup, validateAnn, htry, bind, Except.bind]
    simp only [validateModel, PModel.fields, bind, Except.bind, hsu, hx, hcf,
      pure, Except.pure, PModel.name]

/-- Witness for C7: a union of schemas `A{x: int}` and `B{y: int}` with raw
data `{x: 1}` matches exactly `A`, so construction succeeds with the field
holding `A`'s validated instance. -/
theorem c7_union_ambiguity_witness :
    validateModel
        (.mk "M" true false
          (.cons "f"
            (.union
              (.cons (.tmodel (.mk "A" true false (.cons "x" (.simple .tint) none .nil)))
                (.cons (.tmodel (.mk "B" true false (.cons "y" (.simple .tint) none .nil)))
                  .nil))
              false)
            none .nil))
        (.vdict (.cons "f" (.vdict (.cons "x" (.vint 1) .nil)) .nil)) =
      .ok (.vmodel "M" (.cons "f" (.vmodel "A" (.cons "x" (.vint 1) .nil)) .nil)) :=
  (c7_union_ambiguity "M" "f"
    (.cons (.tmodel (.mk "A" true false (.cons "x" (.simple .tint) none .nil)))
      (.cons (.tmodel (.mk "B" true false (.cons "y" (.simple .tint) none .nil))) .nil))
    (.cons "x" (.vint 1) .nil) (by decide)).2
    "A" (.vmodel "A" (.cons "x" (.vint 1) .nil))
    (by simp [collectMatches, validateModel, safeUnionData, checkExtraKeys, coreFields,
      validateAnn, validateTy, lookupAnnD, fieldNames, Entries.keys, Entries.lookup,
      bind, Except.bind, pure, Except.pure, Except.map, PModel.name, PModel.fields])

theorem schemasTy_model (m : PModel) :
    schemasTy (.tmodel m) = m :: schemasFields m.fields := by
  cases m
  rfl

theorem stackSchemas_append (a b : List (List String × PTy)) :
    stackSchemas (a ++ b) = stackSchemas a ++ stackSchemas b := by
  simp [stackSchemas]

theorem stackNames_append (a b : List (List String × PTy)) :
    stackNames (a ++ b) = stackNames a ++ stackNames b := by
  simp [stackNames]

theorem stackNames_eq (st : List (List String × PTy)) :
    stackNames st = (stackSchemas st).map PModel.name := by
  simp [stackNames, stackSchemas, List.map_flatMap]

theorem stackSchemas_reverse_perm (st : List (List String × PTy)) :
    (stackSchemas st.reverse).Perm (stackSchemas st) :=
  List.Perm.flatMap_right _ (List.reverse_perm st)

theorem schemasTys_toList : (ts : PTys) →
    ts.toList.flatMap schemasTy = schemasTys ts
  | .nil => rfl
  | .cons t rest => by
    simp only [PTys.toList, List.flatMap_cons, schemasTys, schemasTys_toList rest]

theorem stackSchemas_enqFields (p : List String) : (fs : PFields) →
    stackSchemas (enqFields p fs) = schemasFields fs
  | .nil => rfl
  | .cons n ann dflt rest => by
    simp only [enqFields, stackSchemas, List.flatMap_append, schemasFields]
    congr 1
    · cases ann with
      | simple t => simp [schemasAnn]
      | union ts disc =>
        simp only [schemasAnn, List.flatMap_map]
        exact schemasTys_toList ts
    · simpa [stackSchemas] using stackSchemas_enqFields p rest

theorem checkLoop_ok_iff : (stack : List (List String × PTy)) → (checked : List String) →
    (∀ q ∈ stackSchemas stack, q.arbitraryTypes = false) →
    ((checked ++ stackNames stack).Nodup) →
    (checkLoop stack checked .warnA = .ok () ↔
      ∀ q ∈ stackSchemas stack, q.extraForbid = true)
  | [], checked, _, _ => by
    simp [checkLoop, stackSchemas]
  | (path, .tint) :: rest, checked, harb, hnd => by
    have hs : stackSchemas ((path, PTy.tint) :: rest) = stackSchemas rest := by
      simp [stackSchemas, schemasTy]
    have hn : stackNames ((path, PTy.tint) :: rest) = stackNames rest := by
      simp [stackNames, schemasTy]
    rw [hs] at harb
    rw [hn] at hnd
    simp only [checkLoop]
    rw [hs]
    exact checkLoop_ok_iff rest checked harb hnd
  | (path, .tstr) :: rest, checked, harb, hnd => by
    have hs : stackSchemas ((path, PTy.tstr) :: rest) = stackSchemas rest := by
      simp [stackSchemas, schemasTy]
    have hn : stackNames ((path, PTy.tstr) :: rest) = stackNames rest := by
      simp [stackNames, schemasTy]
    rw [hs] at harb
    rw [hn] at hnd
    simp only [checkLoop]
    rw [hs]
    exact checkLoop_ok_iff rest checked harb hnd
  | (path, .tbool) :: rest, checked, harb, hnd => by
    have hs : stackSchemas ((path, PTy.tbool) :: rest) = stackSchemas rest := by
      simp [stackSchemas, schemasTy]
    have hn : stackNames ((path, PTy.tbool) :: rest) = stackNames rest := by
      simp [stackNames, schemasTy]
    rw [hs] at harb
    rw [hn] at hnd
    simp only [checkLoop]
    rw [hs]
    exact checkLoop_ok_iff rest checked harb hnd
  | (path, .tother n hb) :: rest, checked, harb, hnd => by
    have hs : stackSchemas ((path, PTy.tother n hb) :: rest) = stackSchemas rest := by
      simp [stackSchemas, schemasTy]
    have hn : stackNames ((path, PTy.tother n hb) :: rest) = stackNames rest := by
      simp [stackNames, schemasTy]
    rw [hs] at harb
    rw [hn] at hnd
    have ih := checkLoop_ok_iff rest checked harb hnd
    cases hb with
    | true =>
      simp only [checkLoop, Bool.not_true, Bool.false_eq_true, if_false]
      rw [hs]
      exact ih
    | false =>
      simp only [checkLoop, Bool.not_false, if_true, raise_warn_ignore, bind,
        Except.bind]
      rw [hs]
      exact ih
  | (path, .tmodel m) :: rest, checked, harb, hnd => by
    have hsch : stackSchemas ((path, PTy.tmodel m) :: rest) =
        m :: (schemasFields m.fields ++ stackSchemas rest) := by
      simp [stackSchemas, schemasTy_model]
    have hnames : stackNames ((path, PTy.tmodel m) :: rest) =
        m.name :: ((schemasFields m.fields).map PModel.name ++ stackNames rest) := by
      rw [stackNames_eq, hsch]
      simp [stackNames_eq]
    have hmem : m.name ∈ stackNames ((path, PTy.tmodel m) :: rest) := by
      rw [hnames]
      exact List.mem_cons_self _ _
    have hnotin : m.name ∉ checked := by
      rcases List.nodup_append.mp hnd with ⟨_, _, hdisj⟩
      intro hc
      exact hdisj hc hmem
    have hcontains : checked.contains m.name = false := by simpa using hnotin
    rcases hm : m.extraForbid with _ | _
    · simp only [checkLoop, hcontains, Bool.false_eq_true, if_false, hm,
        Bool.not_false, if_true]
      constructor
      · intro hc
        cases hc
      · intro hall
        have := hall m (by rw [hsch]; exact List.mem_cons_self _ _)
        rw [hm] at this
        cases this
    · have harbm : m.arbitraryTypes = false :=
        harb m (by rw [hsch]; exact List.mem_cons_self _ _)
      simp only [checkLoop, hcontains, Bool.false_eq_true, if_false, hm,
        Bool.not_true, harbm]
      have hmemS : ∀ q, q ∈ stackSchemas ((enqFields path m.fields).reverse ++ rest) ↔
          (q ∈ schemasFields m.fields ∨ q ∈ stackSchemas rest) := by
        intro q
        rw [stackSchemas_append, List.mem_append,
          (stackSchemas_reverse_perm (enqFields path m.fields)).mem_iff,
          stackSchemas_enqFields path m.fields]
      have harb' : ∀ q ∈ stackSchemas ((enqFields path m.fields).reverse ++ rest),
          q.arbitraryTypes = false := by
        intro q hq
        rcases (hmemS q).mp hq with h | h
        · exact harb q (by rw [hsch]; exact List.mem_cons_of_mem _ (List.mem_append_left _ h))
        · exact harb q (by rw [hsch]; exact List.mem_cons_of_mem _ (List.mem_append_right _ h))
      have hnd' : ((m.name :: checked) ++
          stackNames ((enqFields path m.fields).reverse ++ rest)).Nodup := by
        have hNrev : (stackNames ((enqFields path m.fields).reverse)).Perm
            ((schemasFields m.fields).map PModel.name) := by
          rw [stackNames_eq]
          have p1 : (stackSchemas ((enqFields path m.fields).reverse)).Perm
              (schemasFields m.fields) := by
            rw [← stackSchemas_enqFields path m.fields]
            exact stackSchemas_reverse_perm _
          exact p1.map PModel.name
        rw [hnames] at hnd
        rw [stackNames_append]
        have hperm : ((m.name :: checked) ++
            (stackNames ((enqFields path m.fields).reverse) ++ stackNames rest)).Perm
            (checked ++ (m.name ::
              ((schemasFields m.fields).map PModel.name ++ stackNames rest))) := by
          have step1 : ((m.name :: checked) ++
              (stackNames ((enqFields path m.fields).reverse) ++ stackNames rest)).Perm
              (m.name :: (checked ++
                ((schemasFields m.fields).map PModel.name ++ stackNames rest))) :=
            List.Perm.cons _ (List.Perm.append_left checked
              (List.Perm.append_right (stackNames rest) hNrev))
          exact step1.trans List.perm_middle.symm
        exact hperm.nodup_iff.mpr hnd
      have ih := checkLoop_ok_iff ((enqFields path m.fields).reverse ++ rest)
        (m.name :: checked) harb' hnd'
      rw [ih]
      constructor
      · intro hall q hq
        rw [hsch] at hq
        rcases List.mem_cons.mp hq with rfl | hq'
        · exact hm
        · exact hall q ((hmemS q).mpr (List.mem_append.mp hq'))
      · intro hall q hq
        rcases (hmemS q).mp hq with h | h
        · exact hall q (by rw [hsch]; exact List.mem_cons_of_mem _ (List.mem_append_left _ h))
        · exact hall q (by rw [hsch]; exact List.mem_cons_of_mem _ (List.mem_append_right _ h))
  termination_by stack => stackW stack
  decreasing_by
  all_goals first
  | (rw [stackW_append, stackW_reverse]
     have h1 := stackW_enqFields path m.fields
     have h2 : wtFields m.fields + 1 ≤ wtTy (PTy.tmodel m) := by
       cases m with
       | mk nn e a fs =>
         simp [wtTy, wtModel, PModel.fields]
         omega
     simp only [stackW, List.map_cons, List.sum_cons] at h1 h2 ⊢
     omega)
  | (simp only [stackW, List.map_cons, List.sum_cons, wtTy]
     omega)

/-- C6 amended: `check_model` walks every declared field's annotation of the
root schema and every reachable nested schema, enqueuing every member of a
union annotation at the same path, but deduplicates by class name: a schema
whose name equals an already-checked schema's name is skipped without being
checked.  Provided the reachable schemas carry pairwise distinct class names
(and none allows arbitrary types, the second half of the same strictness
check), the walk fails with `SchemaConfigError` exactly when some reachable
schema does not declare reject-unknown-fields strictness, and succeeds
silently on an all-strict tree. -/
theorem c6_check_model_strictness (m : PModel)
    (hnames : ((schemasTy (.tmodel m)).map PModel.name).Nodup)
    (harb : ∀ q ∈ schemasTy (.tmodel m), q.arbitraryTypes = false) :
    (check_model m .warnA = .ok ()) ↔
      (∀ q ∈ schemasTy (.tmodel m), q.extraForbid = true) := by
  have hs : stackSchemas [([], PTy.tmodel m)] = schemasTy (.tmodel m) := by
    simp [stackSchemas]
  have hn : stackNames [([], PTy.tmodel m)] = (schemasTy (.tmodel m)).map PModel.name := by
    rw [stackNames_eq, hs]
  have h := checkLoop_ok_iff [([], .tmodel m)] []
    (by rw [hs]; exact harb)
    (by rw [List.nil_append, hn]; exact hnames)
  rw [hs] at h
  simpa only [check_model] using h

/-- Witness for the amended C6: an all-strict two-level tree passes. -/
theorem c6_check_model_strictness_witness :
    check_model
      (.mk "R2" true false
        (.cons "a" (.simple (.tmodel (.mk "S2" true false .nil))) none .nil))
      .warnA = .ok () :=
  (c6_check_model_strictness
    (.mk "R2" true false
      (.cons "a" (.simple (.tmodel (.mk "S2" true false .nil))) none .nil))
    (by decide) (by decide)).mpr (by decide)

/-- C6 counterexample: the visited set is keyed by class name, so with two
distinct schemas that share the name `M` — the strict one processed first —
the non-strict one is reached but skipped, and `check_model` succeeds even
though a reachable schema does not declare reject-unknown-fields. -/
theorem c6_check_model_counterexample :
    check_model
      (.mk "Root" true false
        (.cons "x" (.simple (.tmodel (.mk "M" false false .nil))) none
          (.cons "y" (.simple (.tmodel (.mk "M" true false .nil))) none .nil)))
      .warnA = .ok () ∧
    (PModel.mk "M" false false .nil) ∈
      schemasTy (.tmodel (.mk "Root" true false
        (.cons "x" (.simple (.tmodel (.mk "M" false false .nil))) none
          (.cons "y" (.simple (.tmodel (.mk "M" true false .nil))) none .nil)))) ∧
    (PModel.mk "M" false false .nil).extraForbid = false := by
  refine ⟨?_, by decide, rfl⟩
  simp [check_model, checkLoop, enqFields, PModel.name, PModel.extraForbid,
    PModel.arbitraryTypes, PModel.fields, PTys.toList, List.contains_cons]
